import Mathlib

/- Verification development for the caladan package installer.

Shallow embedding of the Go sources (semver.go, resolve.go) into Lean:
pure functions become Lean functions, filesystem and network effects are
modelled as explicit state or effect traces, Go maps are modelled as
association lists in a fixed iteration order (Go's map iteration order is
unspecified; each embedded loop fixes one linearization), and external
collaborators (the node semver process, the crypto hash engines, JSON
decoding, the registry) are abstracted as function parameters. -/

namespace Caladan

/- ### Lockfile data model (semver.go: PackageInfo, PackageLock, DepCollection) -/

/-- Embeds the Go struct PackageInfo from semver.go (lockfile variant).
`bin` is a Go map modelled as an association list. -/
structure PackageInfo where
  version : String
  resolved : String
  integrity : String
  cpu : List String
  os : List String
  optional : Bool
  bin : List (String × String)
deriving Repr, DecidableEq

/-- Embeds the Go struct PackageLock from semver.go. The raw JSON values
(json.RawMessage) are abstracted by the type parameter. -/
structure PackageLock (α : Type) where
  name : String
  version : String
  dependencies : List (String × α)
  packages : List (String × α)

/-- Embeds the Go struct DepCollection from semver.go. -/
structure DepCollection where
  directDeps : List (String × PackageInfo)
  allPackages : List (String × PackageInfo)
  osSpecificPkgs : List (String × List String)
  cpuSpecificPkgs : List (String × List String)
  optionalPkgs : List String
deriving Repr, DecidableEq

/-- The Go append `m[k] = append(m[k], v)` on a map of slices, on the
association-list model of the map. -/
def appendAt (m : List (String × List String)) (k : String) (v : String) :
    List (String × List String) :=
  match m with
  | [] => [(k, [v])]
  | (k', vs) :: rest =>
      if k' = k then (k', vs ++ [v]) :: rest else (k', vs) :: appendAt rest k v

/-- One iteration of the `packageLock.Packages` loop body of InstallLockFile
(semver.go): skip the root key, skip entries whose JSON does not decode,
otherwise record the package and index it by OS, CPU and optionality. -/
def processOnePackage {α : Type} (decodeEntry : α → Option PackageInfo)
    (acc : DepCollection) (kv : String × α) : DepCollection :=
  if kv.1 = "" then acc
  else
    match decodeEntry kv.2 with
    | none => acc
    | some pkg =>
      let acc := { acc with allPackages := acc.allPackages ++ [(kv.1, pkg)] }
      let acc := { acc with
        osSpecificPkgs := pkg.os.foldl (fun m o => appendAt m o kv.1) acc.osSpecificPkgs }
      let acc := { acc with
        cpuSpecificPkgs := pkg.cpu.foldl (fun m c => appendAt m c kv.1) acc.cpuSpecificPkgs }
      if pkg.optional then { acc with optionalPkgs := acc.optionalPkgs ++ [kv.1] }
      else acc

/-- The `packageLock.Packages` loop of InstallLockFile (semver.go). -/
def processLockPackages {α : Type} (decodeEntry : α → Option PackageInfo)
    (packages : List (String × α)) (acc : DepCollection) : DepCollection :=
  packages.foldl (processOnePackage decodeEntry) acc

/-- The `packageLock.Dependencies` loop of InstallLockFile (semver.go):
entries whose JSON decodes are recorded as direct dependencies, the rest
are skipped. -/
def processLockDependencies {α : Type} (decodeEntry : α → Option PackageInfo)
    (dependencies : List (String × α)) (acc : DepCollection) : DepCollection :=
  dependencies.foldl
    (fun acc kv =>
      match decodeEntry kv.2 with
      | none => acc
      | some pkg => { acc with directDeps := acc.directDeps ++ [(kv.1, pkg)] })
    acc

/-- Fatal errors of the lockfile-loading phase of InstallLockFile: the file
could not be read, or the document as a whole is malformed JSON. Both call
os.Exit(1) in the Go code. -/
inductive LockfileError where
  | readError (msg : String)
  | jsonError (msg : String)
deriving Repr, DecidableEq

/-- The empty DepCollection that InstallLockFile starts from. -/
def emptyDeps : DepCollection := ⟨[], [], [], [], []⟩

/-- Embeds the dependency-collection phase of InstallLockFile (semver.go):
the outcome of os.ReadFile + json.Unmarshal on the whole document is the
`lockData` argument (an error there exits the process), and per-entry
json.Unmarshal is the `decodeEntry` oracle. -/
def installLockFileDeps {α : Type} (decodeEntry : α → Option PackageInfo)
    (lockData : Except LockfileError (PackageLock α)) :
    Except LockfileError DepCollection :=
  match lockData with
  | .error e => .error e
  | .ok packageLock =>
      let deps := processLockDependencies decodeEntry packageLock.dependencies emptyDeps
      let deps := processLockPackages decodeEntry packageLock.packages deps
      .ok deps

/- ### Extraction semaphore sizing (semver.go: DownloadPackages) -/

/-- The default tar worker count from DownloadPackages (semver.go):
`float64(runtime.NumCPU()) * 1.5`. The float64 product is exact for every
machine CPU count (the value 3n/2 is representable whenever 3n < 2^53), so
it is modelled as the exact rational. -/
def tarWorkersDefault (numCPU : Nat) : ℚ := (numCPU : ℚ) * (3 / 2)

/-- The tar worker count after consulting the TAR_WORKERS environment
variable (semver.go, DownloadPackages). An unset variable reads as the
empty string; `parseFloat64` abstracts the fmt.Sscanf float parse; a parse
failure or a non-positive value falls back to the default with a warning. -/
def downloadTarWorkers (parseFloat64 : String → Option ℚ) (numCPU : Nat)
    (tarWorkersEnv : String) : ℚ :=
  if tarWorkersEnv = "" then tarWorkersDefault numCPU
  else
    match parseFloat64 tarWorkersEnv with
    | some tw => if 0 < tw then tw else tarWorkersDefault numCPU
    | none => tarWorkersDefault numCPU

/-- The permit count handed to semaphore.NewWeighted (semver.go):
`int64(tarWorkers)` truncates toward zero, which on the nonnegative worker
counts produced above is the floor. -/
def tarSemaphorePermits (parseFloat64 : String → Option ℚ) (numCPU : Nat)
    (tarWorkersEnv : String) : ℤ :=
  ⌊downloadTarWorkers parseFloat64 numCPU tarWorkersEnv⌋

/- ### Per-package skip decisions (semver.go: DownloadPackages loop body) -/

/-- Externally visible actions of one package's goroutine in
DownloadPackages, in program order. -/
inductive InstallEffect where
  | logLine (msg : String)
  | mkdirAll (path : String)
  | httpGet (url : String)
deriving Repr, DecidableEq

/-- Embeds the name normalization in DownloadPackages (semver.go):
`strings.TrimPrefix(pkgName, "node_modules/")` guarded by HasPrefix, on
the byte (character) representation of the Go string. -/
def normalizePkgName (pkgName : String) : String :=
  if "node_modules/".data.isPrefixOf pkgName.data then pkgName.drop 13 else pkgName

/-- Effect trace of one package's goroutine in DownloadPackages (semver.go)
up to the tarball request: skip (with a log line) when there is no resolved
URL, skip when the entry is OS-specific and none of its OS names equals the
host OS, otherwise create the destination directory and issue the HTTP GET
(the GET is the first action of downloadAndExtractPackage). The destination
path is filepath.Join(nodeModulesPath, normalizedPkgName), written here as
string concatenation with a slash. -/
def packageGoroutineEffects (currentOS nodeModulesPath pkgName : String)
    (pkgInfo : PackageInfo) : List InstallEffect :=
  if pkgInfo.resolved = "" then
    [.logLine ("Skipping " ++ pkgName ++ ": No download URL")]
  else if pkgInfo.os ≠ [] ∧ pkgInfo.os.any (fun o => o == currentOS) = false then
    [.logLine ("Skipping " ++ pkgName ++ ": Not compatible with " ++ currentOS)]
  else
    let pkgPath := nodeModulesPath ++ "/" ++ normalizePkgName pkgName
    [.mkdirAll pkgPath, .httpGet pkgInfo.resolved]

/- ### Filesystem model for the tar extractor (semver.go: extractTarGz) -/

/-- An on-disk object: a regular file with byte contents and permission
bits, a directory, or a symbolic link storing its target string. -/
inductive FsEntry where
  | file (content : List Nat) (mode : Nat)
  | dir
  | symlink (target : String)
deriving Repr, DecidableEq

/-- The filesystem, as a finite map from paths to entries, modelled as an
association list with unique keys. -/
def Fs : Type := List (String × FsEntry)

instance : DecidableEq Fs := by unfold Fs; infer_instance

/-- Path lookup in the filesystem map. -/
def lookupFs (fs : Fs) (p : String) : Option FsEntry :=
  match fs with
  | [] => none
  | (q, e) :: rest => if q = p then some e else lookupFs rest p

/-- Insert-or-update of one path in the filesystem map. -/
def setFs (fs : Fs) (p : String) (e : FsEntry) : Fs :=
  match fs with
  | [] => [(p, e)]
  | (q, e') :: rest => if q = p then (q, e) :: rest else (q, e') :: setFs rest p e

/-- Removal of one path from the filesystem map (os.Remove on an entry
that exists; directory emptiness is not tracked). -/
def removeFs (fs : Fs) (p : String) : Fs :=
  match fs with
  | [] => []
  | (q, e) :: rest => if q = p then rest else (q, e) :: removeFs rest p

/-- os.MkdirAll: succeeds when the path is absent or already a directory,
fails when a non-directory occupies the path. Intermediate components are
not tracked separately. -/
def mkdirAllFs (fs : Fs) (p : String) : Except String Fs :=
  match lookupFs fs p with
  | some .dir => .ok fs
  | some _ => .error ("mkdir " ++ p ++ ": not a directory")
  | none => .ok (setFs fs p .dir)

/-- os.OpenFile with O_CREATE|O_RDWR (no O_TRUNC) followed by a full write
of `content` from offset zero, as extractTarGz does for regular tar
entries: a pre-existing file is overwritten in place without truncation,
so bytes of the old content beyond the new length survive, and the
permission bits given at open apply only when the file is created. -/
def writeFileNoTrunc (fs : Fs) (p : String) (content : List Nat) (mode : Nat) :
    Except String Fs :=
  match lookupFs fs p with
  | some (.file old m) => .ok (setFs fs p (.file (content ++ old.drop content.length) m))
  | some _ => .error ("open " ++ p ++ ": not a regular file")
  | none => .ok (setFs fs p (.file content mode))

/-- os.WriteFile (used for the `.symlink` placeholder): creates or
truncates. -/
def writeFileTrunc (fs : Fs) (p : String) (content : List Nat) (mode : Nat) :
    Except String Fs :=
  match lookupFs fs p with
  | some (.file _ m) => .ok (setFs fs p (.file content m))
  | some _ => .error ("open " ++ p ++ ": not a regular file")
  | none => .ok (setFs fs p (.file content mode))

/- ### Tar archive model and extractTarGz (semver.go) -/

/-- The tar header type flags distinguished by extractTarGz's switch:
directories, regular files (current and legacy flag), symlinks, and
everything else (silently ignored). -/
inductive TarTypeflag where
  | typeDir
  | typeReg
  | typeRegA
  | typeSymlink
  | typeOther
deriving Repr, DecidableEq

/-- The fields of a tar header that extractTarGz consults. -/
structure TarHeader where
  name : String
  typeflag : TarTypeflag
  linkname : String
  mode : Nat
deriving Repr, DecidableEq

/-- One archive member: its header and (for regular files) its byte
contents. -/
structure TarEntry where
  header : TarHeader
  content : List Nat
deriving Repr, DecidableEq

/-- strings.Split of a Go string on a single-byte separator, over the
character-list representation: the list of separated groups, never empty. -/
def splitOnChar (sep : Char) : List Char → List (List Char)
  | [] => [[]]
  | c :: rest =>
      match splitOnChar sep rest with
      | [] => [[]]
      | g :: gs => if c = sep then [] :: g :: gs else (c :: g) :: gs

/-- Rejoin slash-separated groups (the inverse of splitting on '/'). -/
def joinSlash : List (List Char) → List Char
  | [] => []
  | [g] => g
  | g :: gs => g ++ '/' :: joinSlash gs

/-- The `package/` strip in extractTarGz: drop a leading "package/" (eight
characters) from the member name. -/
def stripPackage (name : String) : String :=
  if "package/".data.isPrefixOf name.data then name.drop 8 else name

/-- filepath.Dir: the path up to the final separator. Cleaning is not
modelled; the archives considered here contain no "." or ".." components. -/
def dirOf (path : String) : String :=
  let parts := splitOnChar '/' path.data
  if parts.length ≤ 1 then "." else String.mk (joinSlash parts.dropLast)

/-- The `if !createdDirs[dir] { os.MkdirAll(dir, 0755) }` pattern of
extractTarGz, threading the created-directory cache. -/
def ensureDir (st : Fs × List String) (dir : String) (errCtx : String) :
    Except String (Fs × List String) :=
  if st.2.contains dir then .ok st
  else
    match mkdirAllFs st.1 dir with
    | .error msg => .error (errCtx ++ " " ++ dir ++ ": " ++ msg)
    | .ok fs' => .ok (fs', st.2 ++ [dir])

/-- One iteration of the extractTarGz member loop (semver.go): strip the
`package/` prefix, drop empty names, then switch on the type flag. The
`symlinksSupported` flag models whether os.Symlink succeeds on the host
filesystem; destination paths are joined with a plain slash. -/
def extractEntry (symlinksSupported : Bool) (destPath : String)
    (st : Fs × List String) (e : TarEntry) : Except String (Fs × List String) :=
  let name := stripPackage e.header.name
  if name = "" then .ok st
  else
    let target := destPath ++ "/" ++ name
    match e.header.typeflag with
    | .typeDir =>
        if st.2.contains target then .ok st
        else
          match mkdirAllFs st.1 target with
          | .error msg => .error ("error creating directory " ++ target ++ ": " ++ msg)
          | .ok fs' => .ok (fs', st.2 ++ [target])
    | .typeReg | .typeRegA => do
        let st ← ensureDir st (dirOf target) "error creating directory for file"
        match writeFileNoTrunc st.1 target e.content e.header.mode with
        | .error msg => .error ("error creating file " ++ target ++ ": " ++ msg)
        | .ok fs' => .ok (fs', st.2)
    | .typeSymlink => do
        let st ← ensureDir st (dirOf target) "error creating directory for symlink"
        match lookupFs st.1 target with
        | none =>
            .error ("error removing existing symlink " ++ target ++ ": remove "
              ++ target ++ ": no such file or directory")
        | some _ =>
            let fs := removeFs st.1 target
            if symlinksSupported then .ok (setFs fs target (.symlink e.header.linkname), st.2)
            else
              match writeFileTrunc fs (target ++ ".symlink")
                  (("Symlink to: " ++ e.header.linkname).data.map Char.toNat) 420 with
              | .error msg => .error ("error creating symlink placeholder for " ++ target ++ ": " ++ msg)
              | .ok fs' => .ok (fs', st.2)
    | .typeOther => .ok st

/-- extractTarGz (semver.go) over an already-decoded archive member list:
the member loop runs until the end of the archive, threading the
filesystem and the created-directory cache (initially empty), and returns
the final filesystem or the first error. -/
def extractTarGz (symlinksSupported : Bool) (entries : List TarEntry)
    (destPath : String) (fs : Fs) : Except String Fs :=
  (entries.foldlM (extractEntry symlinksSupported destPath) (fs, [])).map Prod.fst

/- ### Generic association-list operations for Go maps -/

/-- Go map lookup with comma-ok, on the association-list model. -/
def lookupA {β : Type} (m : List (String × β)) (k : String) : Option β :=
  match m with
  | [] => none
  | (k', v) :: rest => if k' = k then some v else lookupA rest k

/-- Go map assignment `m[k] = v`, on the association-list model:
update in place or append. -/
def setA {β : Type} (m : List (String × β)) (k : String) (v : β) :
    List (String × β) :=
  match m with
  | [] => [(k, v)]
  | (k', v') :: rest => if k' = k then (k', v) :: rest else (k', v') :: setA rest k v

/- ### Integrity verification (semver.go: downloadAndExtractPackage, compareHashes) -/

/-- Value of one character in the standard base64 alphabet. -/
def base64Val (c : Char) : Option Nat :=
  if 'A' ≤ c ∧ c ≤ 'Z' then some (c.toNat - 65)
  else if 'a' ≤ c ∧ c ≤ 'z' then some (c.toNat - 97 + 26)
  else if '0' ≤ c ∧ c ≤ '9' then some (c.toNat - 48 + 52)
  else if c = '+' then some 62
  else if c = '/' then some 63
  else none

/-- base64.StdEncoding.DecodeString: four-character quanta over the
standard alphabet, mandatory trailing padding, decoding to bytes. Newline
skipping is not modelled (integrity tags contain none), and as in the
non-strict Go decoder, nonzero trailing bits are ignored. -/
def base64Decode : List Char → Option (List Nat)
  | [] => some []
  | c1 :: c2 :: c3 :: c4 :: rest => do
      let v1 ← base64Val c1
      let v2 ← base64Val c2
      if c3 = '=' then
        if c4 = '=' ∧ rest = [] then some [v1 * 4 + v2 / 16] else none
      else do
        let v3 ← base64Val c3
        if c4 = '=' then
          if rest = [] then some [v1 * 4 + v2 / 16, v2 % 16 * 16 + v3 / 4] else none
        else do
          let v4 ← base64Val c4
          let bs ← base64Decode rest
          some ([v1 * 4 + v2 / 16, v2 % 16 * 16 + v3 / 4, v3 % 4 * 64 + v4] ++ bs)
  | _ => none

/-- compareHashes (semver.go): length check then element-wise equality. -/
def compareHashes : List Nat → List Nat → Bool
  | [], [] => true
  | a :: as_, b :: bs => a == b && compareHashes as_ bs
  | _, _ => false

/-- Failure modes of one fetch-extract unit (downloadAndExtractPackage). -/
inductive UnitError where
  | httpStatus (status : Nat)
  | unsupportedIntegrity (integrity : List Char)
  | extractError (msg : String)
  | integrityDecodeError
  | integrityMismatch
deriving Repr, DecidableEq

/-- Embeds downloadAndExtractPackage (semver.go) from the HTTP response
onward. The crypto engines are abstracted: `sha1Sum` and `sha512Sum` are
the digests the two engines would produce over the downloaded byte stream;
the tee into the extractor is summarized by `extractResult` (the outcome
of extractTarGz on that stream). The integrity tag is the character list
`integrity`; the expected digest is the base64 decoding of element 1 of
strings.Split(integrity, "-"). -/
def downloadAndExtractPackage (httpStatusCode : Nat) (sha1Sum sha512Sum : List Nat)
    (extractResult : Except String Unit) (integrity : List Char) :
    Except UnitError Unit :=
  if httpStatusCode ≠ 200 then .error (.httpStatus httpStatusCode)
  else
    let hashEngine : Option (List Nat) :=
      if "sha1-".data.isPrefixOf integrity then some sha1Sum
      else if "sha512-".data.isPrefixOf integrity then some sha512Sum
      else none
    match hashEngine with
    | none => .error (.unsupportedIntegrity integrity)
    | some actualHash =>
      match extractResult with
      | .error msg => .error (.extractError msg)
      | .ok _ =>
        let expectedHashBase64 := (splitOnChar '-' integrity).getD 1 []
        match base64Decode expectedHashBase64 with
        | none => .error .integrityDecodeError
        | some expectedHash =>
          if compareHashes actualHash expectedHash then .ok ()
          else .error .integrityMismatch

/- ### Resolver data model (resolve.go) -/

namespace Resolve

/-- Embeds the resolver-path variant of the Go PackageInfo struct, as used
by resolve.go: name, version, the three dependency maps, the recursively
resolved dependency map, the copied-down dist fields, and the dist object
itself. Go maps are association lists. -/
inductive PackageInfo where
  | mk (name version : String)
      (dependencies devDependencies peerDependencies : List (String × String))
      (resolvedDeps : List (String × PackageInfo))
      (resolved integrity : String)
      (distTarball distIntegrity : String)

/-- The package name. -/
def PackageInfo.name : PackageInfo → String
  | .mk n _ _ _ _ _ _ _ _ _ => n

/-- The concrete version. -/
def PackageInfo.version : PackageInfo → String
  | .mk _ v _ _ _ _ _ _ _ _ => v

/-- The declared dependency map (name to range). -/
def PackageInfo.dependencies : PackageInfo → List (String × String)
  | .mk _ _ d _ _ _ _ _ _ _ => d

/-- The resolved dependency map (name to resolved entry). -/
def PackageInfo.resolvedDeps : PackageInfo → List (String × PackageInfo)
  | .mk _ _ _ _ _ r _ _ _ _ => r

/-- The zero value of the Go PackageInfo struct, produced by indexing
metadata.Versions at an absent key. -/
def zeroPackageInfo : PackageInfo := .mk "" "" [] [] [] [] "" "" "" ""

/-- Embeds PackageMetadata as decoded from the registry (resolve.go):
the versions map and the dist-tags map. -/
structure PackageMetadata where
  versions : List (String × PackageInfo)
  distTags : List (String × String)

/-- GetMatchingVersions (semver.go): run the external semver process on
`-r range candidates...` and split its stdout on newlines; a process
failure is an error, surfaced to callers for the dist-tag fallback. The
external process is the oracle `runSemverRange`. -/
def GetMatchingVersions (runSemverRange : String → List String → Option String)
    (version : String) (versions : List String) : Option (List String) :=
  match runSemverRange version versions with
  | none => none
  | some out => some ((splitOnChar (Char.ofNat 10) out.data).map (fun g => String.mk g))

/-- The compatibility test ResolveDependency applies to a memoized entry:
GetMatchingVersions of the requested range against the single candidate
succeeded with a nonempty match list. -/
def versionSatisfies (rs : String → List String → Option String)
    (range candidate : String) : Bool :=
  match GetMatchingVersions rs range [candidate] with
  | some ms => decide (0 < ms.length)
  | none => false

/-- The memo scan at the top of ResolveDependency (resolve.go): the first
entry (in iteration order of the fixed linearization) whose key starts
with `name@` and whose concrete version satisfies the requested range. -/
def findCompatible (rs : String → List String → Option String)
    (memo : List (String × PackageInfo)) (name version : String) :
    Option PackageInfo :=
  match memo with
  | [] => none
  | (k, p) :: rest =>
      if (name ++ "@").data.isPrefixOf k.data then
        if versionSatisfies rs version p.version then some p
        else findCompatible rs rest name version
      else findCompatible rs rest name version

/-- latestMatchingVersion (resolve.go): match the range against the
version keys, take the last (greatest) match, index the versions map (the
Go map index yields the zero value at an absent key), require both dist
fields, and copy them onto Resolved and Integrity. -/
def latestMatchingVersion (rs : String → List String → Option String)
    (version : String) (metadata : PackageMetadata) :
    Except String PackageInfo :=
  let keys := metadata.versions.map Prod.fst
  match GetMatchingVersions rs version keys with
  | none => .error ("semver error for " ++ version)
  | some ms =>
    if ms.length = 0 then .error ("no matching versions found for " ++ version)
    else
      match (lookupA metadata.versions ((ms.getLast?).getD "")).getD zeroPackageInfo with
      | .mk n v dd dv pd rd _ _ dt di =>
        if dt = "" then .error "missing tarball URL in package metadata"
        else if di = "" then .error "missing integrity hash in package metadata"
        else .ok (.mk n v dd dv pd rd dt di dt di)

/-- Errors of the resolver path. `outOfFuel` is an artifact of the fuel
that bounds the embedded recursion; the claims are stated on runs with
enough fuel. -/
inductive ResolveError where
  | registryError (msg : String)
  | unknownVersionOrTag (version : String)
  | metadataError (msg : String)
  | dependencyError (name version : String)
  | outOfFuel
deriving Repr, DecidableEq

/-- The post-resolution rewrite in ResolveDependency (resolve.go):
Dependencies becomes the concrete version map of the resolved children,
DevDependencies is cleared, ResolvedDeps is installed. -/
def finalizePkg (p : PackageInfo) (rdeps : List (String × PackageInfo)) :
    PackageInfo :=
  match p with
  | .mk n v _ _ pd _ r i dt di =>
      .mk n v (rdeps.map (fun e => (e.1, e.2.version))) [] pd rdeps r i dt di

mutual

/-- Embeds ResolveDependency (resolve.go). The external semver process is
`rs`, the registry metadata fetch is `registry` (its error string models
any of the request, status or decode failures), the memo is threaded as
state (the Go code shares it under a readers-writer lock; this embedding
is the sequential linearization of one call tree), and the third result
component counts registry metadata fetches. `fuel` bounds the recursion
depth. Note that the memo key `uniqueKey` is computed from the requested
range before any dist-tag substitution. -/
def resolveDependency (rs : String → List String → Option String)
    (registry : String → Except String PackageMetadata) :
    Nat → List (String × PackageInfo) → String → String →
    Except ResolveError PackageInfo × List (String × PackageInfo) × Nat
  | 0, memo, _, _ => (.error .outOfFuel, memo, 0)
  | fuel + 1, memo, name, version =>
    match findCompatible rs memo name version with
    | some existingPkg => (.ok existingPkg, memo, 0)
    | none =>
      let uniqueKey := name ++ "@" ++ version
      match registry name with
      | .error msg => (.error (.registryError msg), memo, 1)
      | .ok metadata =>
        let keys := metadata.versions.map Prod.fst
        let pickedVersion : Except ResolveError String :=
          match GetMatchingVersions rs version keys with
          | some _ => .ok version
          | none =>
            match lookupA metadata.distTags version with
            | some tagVersion => .ok tagVersion
            | none => .error (.unknownVersionOrTag version)
        match pickedVersion with
        | .error e => (.error e, memo, 1)
        | .ok version' =>
          match latestMatchingVersion rs version' metadata with
          | .error msg => (.error (.metadataError msg), memo, 1)
          | .ok pkgInfo =>
            match resolveDepsList rs registry fuel memo pkgInfo.dependencies with
            | (.error e, memo', f) => (.error e, memo', 1 + f)
            | (.ok rdeps, memo', f) =>
              let pkgInfo' := finalizePkg pkgInfo rdeps
              (.ok pkgInfo', setA memo' uniqueKey pkgInfo', 1 + f)
termination_by fuel memo name version => (fuel, 0)

/-- The dependency fan-out of ResolveDependency: each declared dependency
is resolved (the Go code does so concurrently in an errgroup; the
embedding is the sequential linearization in map order), a child error is
wrapped and aborts, successes are collected into the resolvedDeps map. -/
def resolveDepsList (rs : String → List String → Option String)
    (registry : String → Except String PackageMetadata) :
    Nat → List (String × PackageInfo) → List (String × String) →
    Except ResolveError (List (String × PackageInfo)) × List (String × PackageInfo) × Nat
  | _, memo, [] => (.ok [], memo, 0)
  | fuel, memo, (depName, depVersion) :: rest =>
    match resolveDependency rs registry fuel memo depName depVersion with
    | (.error _, memo', f) => (.error (.dependencyError depName depVersion), memo', f)
    | (.ok depPkg, memo', f) =>
      match resolveDepsList rs registry fuel memo' rest with
      | (.error e, memo'', f') => (.error e, memo'', f + f')
      | (.ok others, memo'', f') => (.ok ((depName, depPkg) :: others), memo'', f + f')
termination_by fuel memo deps => (fuel, deps.length + 1)

end

/-- The tail of ResolveDependency after a version has been picked (by
direct semver match or by dist-tag substitution): select the greatest
matching version, resolve the children, finalize and memoize under the
original key. -/
def resolvePicked (rs : String → List String → Option String)
    (registry : String → Except String PackageMetadata)
    (fuel : Nat) (memo : List (String × PackageInfo))
    (uniqueKey version : String) (metadata : PackageMetadata) :
    Except ResolveError PackageInfo × List (String × PackageInfo) × Nat :=
  match latestMatchingVersion rs version metadata with
  | .error msg => (.error (.metadataError msg), memo, 0)
  | .ok pkgInfo =>
    match resolveDepsList rs registry fuel memo pkgInfo.dependencies with
    | (.error e, memo', f) => (.error e, memo', f)
    | (.ok rdeps, memo', f) =>
      let pkgInfo' := finalizePkg pkgInfo rdeps
      (.ok pkgInfo', setA memo' uniqueKey pkgInfo', f)

/- ### Hoister (resolve.go: HoistDependencies) -/

/-- The `name@version` key used by the hoister. -/
def hoistKey (p : PackageInfo) : String := p.name ++ "@" ++ p.version

/-- Go's `counts[key]++` on the association-list model. -/
def bumpCount (counts : List (String × Nat)) (k : String) : List (String × Nat) :=
  match counts with
  | [] => [(k, 1)]
  | (k', n) :: rest => if k' = k then (k', n + 1) :: rest else (k', n) :: bumpCount rest k

mutual

/-- One package's visit in collectPackages (HoistDependencies,
resolve.go): record it in the packages map, bump its count, then walk its
resolved dependencies. -/
def collectPkg (st : List (String × PackageInfo) × List (String × Nat)) :
    PackageInfo → List (String × PackageInfo) × List (String × Nat)
  | .mk n v dd dv pd rdeps r i dt di =>
    let key := n ++ "@" ++ v
    let p := PackageInfo.mk n v dd dv pd rdeps r i dt di
    collectEntries (setA st.1 key p, bumpCount st.2 key) rdeps

/-- The nested walk over a resolvedDeps map in collectPackages. -/
def collectEntries (st : List (String × PackageInfo) × List (String × Nat)) :
    List (String × PackageInfo) → List (String × PackageInfo) × List (String × Nat)
  | [] => st
  | (_, p) :: rest => collectEntries (collectPkg st p) rest

end

/-- The top-level collectPackages walk over the input dependency list. -/
def collectTop (st : List (String × PackageInfo) × List (String × Nat)) :
    List PackageInfo → List (String × PackageInfo) × List (String × Nat)
  | [] => st
  | p :: rest => collectTop (collectPkg st p) rest

/-- The effective action of updateRefs (HoistDependencies, resolve.go) on
one slice element: rebuild its resolvedDeps map without the entries whose
name and version match the hoisted package. The Go function also recurses
into each nested dependency, but it does so on a fresh one-element slice
holding a value copy of the entry and assigns the rebuilt map to that
copy, so the recursion never alters the slice updateRefs was called on;
the depth-one filter is its entire effect on the returned tree. -/
def cleanTopLevel (n v : String) : PackageInfo → PackageInfo
  | .mk nm vr dd dv pd rdeps r i dt di =>
      .mk nm vr dd dv pd
        (rdeps.filter (fun e => !(e.2.name == n && e.2.version == v))) r i dt di

/-- One iteration of the hoisting loop over the counts map
(HoistDependencies, resolve.go): keys seen once are skipped; a
multiply-referenced package is appended to the root when its name is not
yet there, and updateRefs then rewrites every root entry; a root entry
with the same name and version triggers the rewrite without an append; a
conflicting version at the root leaves everything in place. -/
def hoistStep (packages : List (String × PackageInfo))
    (st : List PackageInfo × List (String × String)) (kc : String × Nat) :
    List PackageInfo × List (String × String) :=
  if kc.2 ≤ 1 then st
  else
    match lookupA packages kc.1 with
    | none => st
    | some pkg =>
      match lookupA st.2 pkg.name with
      | some existingVersion =>
          if existingVersion = pkg.version then
            (st.1.map (cleanTopLevel pkg.name pkg.version), st.2)
          else st
      | none =>
          ((st.1 ++ [pkg]).map (cleanTopLevel pkg.name pkg.version),
            setA st.2 pkg.name pkg.version)

/-- HoistDependencies (resolve.go): collect the packages and reference
counts over the whole tree, seed the root with the input list and its
name-to-version map, then run the hoisting loop over the counts. -/
def HoistDependencies (dependencies : List PackageInfo) : List PackageInfo :=
  let collected := collectTop ([], []) dependencies
  let packages := collected.1
  let counts := collected.2
  let rootPackages := dependencies.foldl (fun m d => setA m d.name d.version) []
  (counts.foldl (hoistStep packages) (dependencies, rootPackages)).1

mutual

/-- Whether some resolvedDeps map anywhere inside the package's subtree
contains an entry named `n` at version `v`. -/
def occursInDeps (n v : String) : PackageInfo → Bool
  | .mk _ _ _ _ _ rdeps _ _ _ _ => occursInEntries n v rdeps

/-- The entry-list form of occursInDeps. -/
def occursInEntries (n v : String) : List (String × PackageInfo) → Bool
  | [] => false
  | (_, p) :: rest =>
      (p.name == n && p.version == v) || occursInDeps n v p || occursInEntries n v rest

end

end Resolve

/- ### Path model for filepath.Join, Clean, Dir, Rel (bin shim installer) -/

/-- A slash-separated path, modelled at the granularity of its segments:
an absolute flag and the list of components between separators. The Go
code only ever builds paths by filepath.Join of components, so the
byte-level parsing of the separator is abstracted away. -/
structure GoPath where
  absolute : Bool
  segs : List String
deriving Repr, DecidableEq

/-- One step of filepath.Clean's lexical scan: empty and dot components
vanish, a dot-dot pops a preceding normal component (at the root it
vanishes on absolute paths and accumulates on relative ones), anything
else is kept. The stack holds the output components, topmost first. -/
def cleanStep (absolute : Bool) (stack : List String) (s : String) : List String :=
  if s = "" ∨ s = "." then stack
  else if s = ".." then
    match stack with
    | [] => if absolute then [] else [".."]
    | t :: rest => if t = ".." then s :: t :: rest else rest
  else s :: stack

/-- filepath.Clean on a segment list. -/
def cleanSegs (absolute : Bool) (l : List String) : List String :=
  (l.foldl (cleanStep absolute) []).reverse

/-- filepath.Clean on a path. -/
def cleanPath (p : GoPath) : GoPath :=
  ⟨p.absolute, cleanSegs p.absolute p.segs⟩

/-- filepath.Join: concatenate the extra components and clean. -/
def joinPath (p : GoPath) (more : List String) : GoPath :=
  cleanPath ⟨p.absolute, p.segs ++ more⟩

/-- filepath.Dir: everything before the final component, cleaned. -/
def dirPath (p : GoPath) : GoPath :=
  cleanPath ⟨p.absolute, p.segs.dropLast⟩

/-- The element-by-element advance of filepath.Rel to the first differing
components of the cleaned base and target. -/
def stripCommon : List String → List String → List String × List String
  | a :: as_, b :: bs =>
      if a = b then stripCommon as_ bs else (a :: as_, b :: bs)
  | as_, bs => (as_, bs)

/-- filepath.Rel (Unix, no volume names): clean both paths, return "." on
equality, refuse mixed absolute and relative paths and a base whose first
differing component is a dot-dot, otherwise climb out of the remaining
base components and descend into the remaining target components. The
result is the segment list of the returned relative path. -/
def relPath (basepath targpath : GoPath) : Option (List String) :=
  if basepath.absolute ≠ targpath.absolute then none
  else
    let base := cleanSegs basepath.absolute basepath.segs
    let targ := cleanSegs targpath.absolute targpath.segs
    if base = targ then some ["."]
    else
      match stripCommon base targ with
      | ([], trest) => some trest
      | (b0 :: brest, trest) =>
          if b0 = ".." then none
          else some (List.replicate (b0 :: brest).length ".." ++ trest)

/-- The link-target computation of createExecutableSymlink (semver.go):
filepath.Rel from the link's directory to the script, the segment list
the created symlink stores. A `none` result models the Rel error path, on
which no link is created. -/
def createExecutableSymlink (targetPath linkPath : GoPath) : Option (List String) :=
  relPath (dirPath linkPath) targetPath

/-- A path component that is not empty, not ".", and not "..": the shape
of real package names, command names and script path components. -/
def NormalSeg (s : String) : Prop := s ≠ "" ∧ s ≠ "." ∧ s ≠ ".."

/- ### Auxiliary predicates and concrete test inputs -/

/-- Whether an effect touches the filesystem or the network (directory
creation or tarball request), as opposed to a log line. -/
def isFsOrNetworkEffect : InstallEffect → Bool
  | .logLine _ => false
  | .mkdirAll _ => true
  | .httpGet _ => true

/-- A well-decoding lockfile entry for the decode-skip scenario. -/
def pkg10 : PackageInfo := ⟨"1.0.0", "u", "", [], [], false, []⟩

/-- A per-entry decode oracle: true decodes to pkg10, false fails. -/
def dec10 : Bool → Option PackageInfo := fun b => if b then some pkg10 else none

/-- A lockfile whose packages map holds one decodable entry and one whose
JSON fails to decode. -/
def pl10 : PackageLock Bool :=
  ⟨"root", "1.0.0", [], [("node_modules/a", true), ("node_modules/b", false)]⟩

/-- A two-member archive writing the same regular-file path twice, the
second time with fewer bytes than the first. -/
def dupArchive : List TarEntry :=
  [⟨⟨"package/a.js", .typeReg, "", 420⟩, [9, 9, 9]⟩,
   ⟨⟨"package/a.js", .typeReg, "", 420⟩, [1]⟩]

namespace Resolve

/-- Depth-one absence: no entry of the package's own resolvedDeps map is
named `n` at version `v`. -/
def noTopOcc (n v : String) (q : PackageInfo) : Bool :=
  q.resolvedDeps.all (fun e => !(e.2.name == n && e.2.version == v))

/-- A semver oracle that always reports one matching version. -/
def rsAlways : String → List String → Option String := fun _ _ => some "1.0.0"

/-- A semver oracle whose external process always fails. -/
def rsNever : String → List String → Option String := fun _ _ => none

/-- A registry oracle that always fails, proving no fetch can succeed. -/
def regOffline : String → Except String PackageMetadata := fun _ => .error "offline"

/-- A registry oracle returning metadata with no versions and no tags. -/
def regEmpty : String → Except String PackageMetadata := fun _ => .ok ⟨[], []⟩

/-- A resolved entry for the memo-reuse scenario. -/
def pkgFoo : PackageInfo := .mk "foo" "1.0.0" [] [] [] [] "" "" "" ""

/-- A memo holding one previously resolved range of `foo`. -/
def memoFoo : List (String × PackageInfo) := [("foo@^1.0.0", pkgFoo)]

/-- Leaf package C, referenced from two places in the hoister scenario. -/
def hoistC : PackageInfo := .mk "C" "1.0.0" [] [] [] [] "" "" "" ""

/-- Package B, whose resolvedDeps holds C at depth two of the tree. -/
def hoistB : PackageInfo := .mk "B" "1.0.0" [] [] [] [("C", hoistC)] "" "" "" ""

/-- Root package A with B (and through it C) below it. -/
def hoistA : PackageInfo := .mk "A" "1.0.0" [] [] [] [("B", hoistB)] "" "" "" ""

/-- Root package X holding C directly at depth one. -/
def hoistX : PackageInfo := .mk "X" "1.0.0" [] [] [] [("C", hoistC)] "" "" "" ""

/-- The hoister input: C is referenced twice (at depth two under A, at
depth one under X) and is not at the root. -/
def hoistInput : List PackageInfo := [hoistA, hoistX]

end Resolve

-- THEOREMS

/- ### Claim C4: extraction semaphore permits -/

/-- Claim C4 as stated is false: with TAR_WORKERS unset and one logical
CPU, the semaphore receives int64(1.5) = 1 permit, not the ceiling 2. -/
theorem claim4_counterexample :
    tarSemaphorePermits (fun _ => none) 1 "" ≠ ⌈tarWorkersDefault 1⌉ := by
  have h1 : tarSemaphorePermits (fun _ => none) 1 "" = 1 := by
    unfold tarSemaphorePermits downloadTarWorkers tarWorkersDefault
    rw [if_pos rfl]
    rw [show ((1 : ℕ) : ℚ) * (3 / 2) = ((3 : ℤ) : ℚ) / ((2 : ℕ) : ℚ) by norm_num]
    rw [Rat.floor_intCast_div_natCast]
    rfl
  have h2 : ⌈tarWorkersDefault 1⌉ = 2 := by
    unfold tarWorkersDefault
    rw [show ((1 : ℕ) : ℚ) * (3 / 2) = (3 : ℚ) / 2 by norm_num]
    rw [Int.ceil_eq_iff]
    constructor <;> norm_num
  rw [h1, h2]
  decide

/-- Claim C4 amended: with TAR_WORKERS unset the extraction semaphore
receives the floor (truncation toward zero of the float64 product), not
the ceiling, of 1.5 times the logical CPU count. -/
theorem claim4_amended (parseFloat64 : String → Option ℚ) (numCPU : ℕ) :
    tarSemaphorePermits parseFloat64 numCPU "" = (3 * (numCPU : ℤ)) / 2 := by
  unfold tarSemaphorePermits downloadTarWorkers tarWorkersDefault
  rw [if_pos rfl]
  rw [show ((numCPU : ℚ) * (3 / 2)) = ((3 * (numCPU : ℤ) : ℤ) : ℚ) / ((2 : ℕ) : ℚ) by
    push_cast; ring]
  rw [Rat.floor_intCast_div_natCast]
  norm_num

/- ### Claim C7: OS-filtered entries are skipped entirely -/

/-- Claim C7: an entry whose os list is non-empty and does not name the
host operating system is skipped outright: its goroutine performs no
directory creation and issues no tarball request, only the skip log line. -/
theorem claim7_os_filter_skips (currentOS nodeModulesPath pkgName : String)
    (pkgInfo : PackageInfo) (hne : pkgInfo.os ≠ [])
    (hnot : currentOS ∉ pkgInfo.os) :
    (packageGoroutineEffects currentOS nodeModulesPath pkgName pkgInfo).all
      (fun eff => !isFsOrNetworkEffect eff) = true := by
  have hany : pkgInfo.os.any (fun o => o == currentOS) = false := by
    rw [Bool.eq_false_iff]
    intro h
    obtain ⟨o, ho, hoeq⟩ := List.any_eq_true.mp h
    exact hnot (eq_of_beq hoeq ▸ ho)
  unfold packageGoroutineEffects
  by_cases hres : pkgInfo.resolved = "" <;>
    simp [hres, hany, hne, isFsOrNetworkEffect]

/-- Witness for C7 at a concrete darwin-only entry on a linux host. -/
theorem claim7_witness :
    (packageGoroutineEffects "linux" "nm" "fsevents"
      ⟨"1.0.0", "u", "", [], ["darwin"], false, []⟩).all
      (fun eff => !isFsOrNetworkEffect eff) = true :=
  claim7_os_filter_skips "linux" "nm" "fsevents"
    ⟨"1.0.0", "u", "", [], ["darwin"], false, []⟩ (by decide) (by decide)

/- ### Claim C10: per-entry lockfile decode failures are skipped silently -/

/-- The direct-dependency loop never touches the allPackages field. -/
theorem processLockDependencies_allPackages {α : Type}
    (d : α → Option PackageInfo) (l : List (String × α)) (acc : DepCollection) :
    (processLockDependencies d l acc).allPackages = acc.allPackages := by
  induction l generalizing acc with
  | nil => rfl
  | cons kv rest ih =>
    have hstep : processLockDependencies d (kv :: rest) acc
        = processLockDependencies d rest
          (match d kv.2 with
           | none => acc
           | some pkg => { acc with directDeps := acc.directDeps ++ [(kv.1, pkg)] }) := rfl
    rw [hstep]
    cases d kv.2 <;> simp [ih]

/-- The allPackages contribution of one packages-map entry. -/
theorem processOnePackage_allPackages {α : Type} (d : α → Option PackageInfo)
    (acc : DepCollection) (kv : String × α) :
    (processOnePackage d acc kv).allPackages
      = acc.allPackages ++
        (if kv.1 = "" then []
         else
           match d kv.2 with
           | none => []
           | some pkg => [(kv.1, pkg)]) := by
  unfold processOnePackage
  by_cases h : kv.1 = ""
  · simp [h]
  · simp only [h, if_false, if_neg]
    cases hd : d kv.2 with
    | none => simp
    | some pkg => by_cases ho : pkg.optional <;> simp [ho]

/-- The packages loop records exactly the non-root entries whose JSON
decodes, in order. -/
theorem processLockPackages_allPackages {α : Type} (d : α → Option PackageInfo)
    (ps : List (String × α)) (acc : DepCollection) :
    (processLockPackages d ps acc).allPackages
      = acc.allPackages ++
          ps.filterMap (fun kv =>
            if kv.1 = "" then none else (d kv.2).map (fun p => (kv.1, p))) := by
  induction ps generalizing acc with
  | nil => simp [processLockPackages]
  | cons kv rest ih =>
    have hstep : processLockPackages d (kv :: rest) acc
        = processLockPackages d rest (processOnePackage d acc kv) := rfl
    rw [hstep, ih, processOnePackage_allPackages]
    by_cases h : kv.1 = ""
    · simp [h]
    · cases hd : d kv.2 <;> simp [h, hd]

/-- Association-list lookup misses exactly the absent keys. -/
theorem lookupA_eq_none_iff {β : Type} (m : List (String × β)) (k : String) :
    lookupA m k = none ↔ k ∉ m.map Prod.fst := by
  induction m with
  | nil => simp [lookupA]
  | cons kv rest ih =>
    unfold lookupA
    by_cases h : kv.1 = k
    · simp [h]
    · simp only [List.map_cons, List.mem_cons]
      rw [if_neg (by exact h), ih]
      constructor
      · intro hk hc
        rcases hc with hc | hc
        · exact h hc.symm
        · exact hk hc
      · intro hk
        exact fun hc => hk (Or.inr hc)

/-- With duplicate-free keys (as in a Go map), a key determines its value. -/
theorem mem_unique_of_nodup_keys {α : Type} (ps : List (String × α))
    (hnd : (ps.map Prod.fst).Nodup) (a : String) (b c : α)
    (hb : (a, b) ∈ ps) (hc : (a, c) ∈ ps) : b = c := by
  induction ps with
  | nil => cases hb
  | cons kv rest ih =>
    simp only [List.map_cons, List.nodup_cons] at hnd
    rcases List.mem_cons.mp hb with hb1 | hb1 <;>
      rcases List.mem_cons.mp hc with hc1 | hc1
    · exact congrArg Prod.snd (hb1.trans hc1.symm)
    · exfalso
      apply hnd.1
      rw [show kv.1 = a from congrArg Prod.fst hb1.symm]
      exact List.mem_map.mpr ⟨(a, c), hc1, rfl⟩
    · exfalso
      apply hnd.1
      rw [show kv.1 = a from congrArg Prod.fst hc1.symm]
      exact List.mem_map.mpr ⟨(a, b), hb1, rfl⟩
    · exact ih hnd.2 hb1 hc1

/-- Claim C10: a lockfile whose top-level read or JSON decode fails is a
fatal error; but an individual dependencies- or packages-map entry that
fails to decode is silently dropped, the run proceeds, every other
decodable entry is still installed, and the failed entry is absent from
the install set. -/
theorem claim10_entry_decode_skip {α : Type} (decodeEntry : α → Option PackageInfo)
    (e : LockfileError) (pl : PackageLock α) :
    installLockFileDeps decodeEntry (.error e) = .error e
    ∧ ∃ deps, installLockFileDeps decodeEntry (.ok pl) = .ok deps
        ∧ ((pl.packages.map Prod.fst).Nodup →
            ∀ name raw, (name, raw) ∈ pl.packages → name ≠ "" →
              (decodeEntry raw = none → lookupA deps.allPackages name = none)
              ∧ ∀ pkg, decodeEntry raw = some pkg → (name, pkg) ∈ deps.allPackages) := by
  constructor
  · rfl
  · refine ⟨_, rfl, ?_⟩
    intro hnd name raw hmem hname
    have hall : (processLockPackages decodeEntry pl.packages
          (processLockDependencies decodeEntry pl.dependencies emptyDeps)).allPackages
        = pl.packages.filterMap (fun kv =>
            if kv.1 = "" then none else (decodeEntry kv.2).map (fun p => (kv.1, p))) := by
      rw [processLockPackages_allPackages, processLockDependencies_allPackages]
      rfl
    constructor
    · intro hdec
      rw [hall, lookupA_eq_none_iff]
      intro hk
      obtain ⟨pr, hpr, hfst⟩ := List.mem_map.mp hk
      obtain ⟨kv, hkv, hf⟩ := List.mem_filterMap.mp hpr
      by_cases hz : kv.1 = ""
      · rw [if_pos hz] at hf; cases hf
      · rw [if_neg hz] at hf
        obtain ⟨p, hp, hpe⟩ := Option.map_eq_some'.mp hf
        have hk1 : kv.1 = name := by
          rw [← hfst, ← hpe]
        have : kv.2 = raw := by
          apply mem_unique_of_nodup_keys pl.packages hnd name
          · rw [← hk1]; exact (Prod.mk.eta (p := kv)) ▸ hkv
          · exact hmem
        rw [this] at hp
        rw [hdec] at hp
        cases hp
    · intro pkg hdec
      rw [hall]
      apply List.mem_filterMap.mpr
      exact ⟨(name, raw), hmem, by simp [hname, hdec]⟩

/-- Witness for C10: a lockfile-level error is fatal, while the run on a
lockfile with one undecodable packages entry succeeds, keeping the
decodable entry and omitting the failed one. -/
theorem claim10_witness :
    installLockFileDeps dec10 (.error (.readError "x")) = .error (.readError "x")
    ∧ installLockFileDeps dec10 (.ok pl10)
        = .ok ⟨[], [("node_modules/a", pkg10)], [], [], []⟩
    ∧ lookupA [("node_modules/a", pkg10)] "node_modules/b" = none := by
  obtain ⟨ha, deps, hok, hrest⟩ := claim10_entry_decode_skip dec10 (.readError "x") pl10
  have hdeps : deps = ⟨[], [("node_modules/a", pkg10)], [], [], []⟩ := by
    have hconc : installLockFileDeps dec10 (.ok pl10)
        = .ok (⟨[], [("node_modules/a", pkg10)], [], [], []⟩ : DepCollection) := rfl
    rw [hconc] at hok
    exact (Except.ok.inj hok).symm
  refine ⟨ha, by rw [← hdeps]; exact hok, ?_⟩
  have h3 := (hrest (by decide) "node_modules/b" false (by decide) (by decide)).1 rfl
  rw [hdeps] at h3
  exact h3

/- ### Claim C1: symlink extraction on a fresh target path -/

/-- Claim C1 meets a code bug: extractTarGz removes the symlink's target
path unconditionally and propagates the os.Remove error, so extracting a
symlink entry into a fresh destination (no file at the target) fails with
the remove error instead of creating the symlink, contradicting both the
spec and the code's own stated intent of removing only to avoid
creation-time errors. -/
theorem claim1_symlink_fresh_target_fails :
    extractTarGz true [⟨⟨"package/lib", .typeSymlink, "index.js", 0⟩, []⟩]
      "node_modules/pkg" []
      = .error ("error removing existing symlink node_modules/pkg/lib: remove "
          ++ "node_modules/pkg/lib: no such file or directory") := rfl

/- ### Claim C3: duplicate regular-file paths in one archive -/

/-- Claim C3 as stated is false: the extractor opens without O_TRUNC, so
when the same path's later entry is shorter, trailing bytes of the earlier
entry survive; here the second entry is [1] but the file ends as [1, 9, 9]. -/
theorem claim3_counterexample :
    (extractTarGz true dupArchive "dest" []).map (fun fs => lookupFs fs "dest/a.js")
      = .ok (some (.file [1, 9, 9] 420))
    ∧ ([1, 9, 9] : List Nat) ≠ [1] := ⟨rfl, by decide⟩

/-- Claim C3 amended: extracting an archive whose two regular-file entries
share one path succeeds without error, and the final contents are the last
entry's bytes overlaid on the first entry's (byte-identical to the last
entry exactly when it is at least as long; otherwise the first entry's
tail survives), with the first entry's mode bits. -/
theorem claim3_amended (dest n : String) (c1 c2 : List Nat) (m1 m2 : Nat)
    (hn : stripPackage n ≠ "")
    (hdir : dirOf (dest ++ "/" ++ stripPackage n) ≠ dest ++ "/" ++ stripPackage n) :
    extractTarGz true [⟨⟨n, .typeReg, "", m1⟩, c1⟩, ⟨⟨n, .typeReg, "", m2⟩, c2⟩] dest []
      = .ok [(dirOf (dest ++ "/" ++ stripPackage n), .dir),
             (dest ++ "/" ++ stripPackage n, .file (c2 ++ c1.drop c2.length) m1)] := by
  unfold extractTarGz
  simp only [List.foldlM_cons, List.foldlM_nil]
  unfold extractEntry ensureDir mkdirAllFs writeFileNoTrunc lookupFs setFs
  simp [hn, hdir, Ne.symm hdir, Except.bind, bind, Except.map, lookupFs, setFs,
    pure, Except.pure]

/-- Witness for the amended C3 at a concrete archive: contents [5, 6] then
[7] produce the file [7, 6]. -/
theorem claim3_amended_witness :
    extractTarGz true
      [⟨⟨"package/x", .typeReg, "", 1⟩, [5, 6]⟩, ⟨⟨"package/x", .typeReg, "", 2⟩, [7]⟩]
      "d" []
      = .ok [("d", .dir), ("d/x", .file [7, 6] 1)] :=
  claim3_amended "d" "package/x" [5, 6] [7] 1 2 (by decide) (by decide)

/- ### Claim C6: integrity tag handling of the fetch-extract unit -/

/-- splitOnChar never produces the empty group list. -/
theorem splitOnChar_ne_nil (sep : Char) (l : List Char) : splitOnChar sep l ≠ [] := by
  cases l with
  | nil => simp [splitOnChar]
  | cons c rest =>
    unfold splitOnChar
    cases h : splitOnChar sep rest with
    | nil => simp
    | cons g gs => by_cases hc : c = sep <;> simp [hc]

/-- A separator-free string splits as the single group holding it. -/
theorem splitOnChar_no_sep (sep : Char) (t : List Char) (ht : sep ∉ t) :
    splitOnChar sep t = [t] := by
  induction t with
  | nil => rfl
  | cons c rest ih =>
    have hc : c ≠ sep := fun h => ht (h ▸ List.mem_cons_self c rest)
    have hrest : sep ∉ rest := fun h => ht (List.mem_cons_of_mem c h)
    unfold splitOnChar
    rw [ih hrest]
    simp [hc]

/-- Splitting after a separator-free head group. -/
theorem splitOnChar_append (sep : Char) (p t : List Char) (hp : sep ∉ p) :
    splitOnChar sep (p ++ sep :: t) = p :: splitOnChar sep t := by
  induction p with
  | nil =>
    simp only [List.nil_append]
    rw [show splitOnChar sep (sep :: t)
        = (match splitOnChar sep t with
           | [] => [[]]
           | g :: gs => if sep = sep then [] :: g :: gs else (sep :: g) :: gs) from rfl]
    cases h : splitOnChar sep t with
    | nil => exact absurd h (splitOnChar_ne_nil sep t)
    | cons g gs => simp
  | cons c p' ih =>
    have hc : c ≠ sep := fun h => hp (h ▸ List.mem_cons_self ..)
    have hp' : sep ∉ p' := fun h => hp (List.mem_cons_of_mem c h)
    simp only [List.cons_append]
    rw [show splitOnChar sep (c :: (p' ++ sep :: t))
        = (match splitOnChar sep (p' ++ sep :: t) with
           | [] => [[]]
           | g :: gs => if c = sep then [] :: g :: gs else (c :: g) :: gs) from rfl]
    rw [ih hp']
    simp [hc]

/-- compareHashes decides list equality. -/
theorem compareHashes_eq_true_iff (a b : List Nat) :
    compareHashes a b = true ↔ a = b := by
  induction a generalizing b with
  | nil => cases b <;> simp [compareHashes]
  | cons x xs ih =>
    cases b with
    | nil => simp [compareHashes]
    | cons y ys => simp [compareHashes, ih]

/-- Claim C6: a tag starting with neither sha1- nor sha512- fails the unit
as unsupported before any verification; for a recognized prefix with a
dash-free base64 tail, once the extractor has returned successfully the
tail is decoded (an undecodable tail fails the unit), and the unit
succeeds exactly when the decoded digest equals the hash the selected
engine computed over the downloaded stream, a mismatch failing the unit as
an integrity error. -/
theorem claim6_integrity_contract (sha1Sum sha512Sum : List Nat) (t : List Char)
    (extractResult : Except String Unit) (ht : '-' ∉ t) :
    (∀ integrity : List Char,
        "sha1-".data.isPrefixOf integrity = false →
        "sha512-".data.isPrefixOf integrity = false →
        downloadAndExtractPackage 200 sha1Sum sha512Sum extractResult integrity
          = .error (.unsupportedIntegrity integrity))
    ∧ (base64Decode t = none →
        downloadAndExtractPackage 200 sha1Sum sha512Sum (.ok ()) ("sha1-".data ++ t)
            = .error .integrityDecodeError
        ∧ downloadAndExtractPackage 200 sha1Sum sha512Sum (.ok ()) ("sha512-".data ++ t)
            = .error .integrityDecodeError)
    ∧ (∀ d, base64Decode t = some d →
        ((downloadAndExtractPackage 200 sha1Sum sha512Sum (.ok ()) ("sha1-".data ++ t)
            = .ok () ↔ sha1Sum = d)
          ∧ (sha1Sum ≠ d →
              downloadAndExtractPackage 200 sha1Sum sha512Sum (.ok ()) ("sha1-".data ++ t)
                = .error .integrityMismatch))
        ∧ ((downloadAndExtractPackage 200 sha1Sum sha512Sum (.ok ()) ("sha512-".data ++ t)
            = .ok () ↔ sha512Sum = d)
          ∧ (sha512Sum ≠ d →
              downloadAndExtractPackage 200 sha1Sum sha512Sum (.ok ()) ("sha512-".data ++ t)
                = .error .integrityMismatch))) := by
  have htail1 : (splitOnChar '-' ('s' :: 'h' :: 'a' :: '1' :: '-' :: t))[1]?.getD [] = t := by
    rw [show ('s' :: 'h' :: 'a' :: '1' :: '-' :: t) = "sha1".data ++ '-' :: t from rfl]
    rw [splitOnChar_append '-' "sha1".data t (by decide), splitOnChar_no_sep '-' t ht]
    rfl
  have htail512 :
      (splitOnChar '-' ('s' :: 'h' :: 'a' :: '5' :: '1' :: '2' :: '-' :: t))[1]?.getD [] = t := by
    rw [show ('s' :: 'h' :: 'a' :: '5' :: '1' :: '2' :: '-' :: t) = "sha512".data ++ '-' :: t from rfl]
    rw [splitOnChar_append '-' "sha512".data t (by decide), splitOnChar_no_sep '-' t ht]
    rfl
  have hpref1 : "sha1-".data.isPrefixOf ("sha1-".data ++ t) = true := by
    simp [List.isPrefixOf_iff_prefix]
  have hpref512 : "sha512-".data.isPrefixOf ("sha512-".data ++ t) = true := by
    simp [List.isPrefixOf_iff_prefix]
  have hpref1512 : "sha1-".data.isPrefixOf ("sha512-".data ++ t) = false := by
    rw [show "sha512-".data ++ t = 's' :: 'h' :: 'a' :: '5' :: '1' :: '2' :: '-' :: t from rfl]
    rw [show "sha1-".data = ['s', 'h', 'a', '1', '-'] from rfl]
    simp [List.isPrefixOf]
  refine ⟨?_, ?_, ?_⟩
  · intro integrity h1 h512
    unfold downloadAndExtractPackage
    simp [h1, h512]
  · intro hdec
    constructor
    · unfold downloadAndExtractPackage
      simp [hpref1, htail1, hdec]
    · unfold downloadAndExtractPackage
      simp [hpref512, hpref1512, htail512, hdec]
  · intro d hdec
    constructor
    · constructor
      · unfold downloadAndExtractPackage
        simp [hpref1, htail1, hdec]
        constructor
        · intro hcmp
          exact (compareHashes_eq_true_iff _ _).mp hcmp
        · intro hq
          rw [hq]
          exact (compareHashes_eq_true_iff _ _).mpr rfl
      · intro hne
        unfold downloadAndExtractPackage
        simp [hpref1, htail1, hdec]
        have : compareHashes sha1Sum d = false := by
          rw [Bool.eq_false_iff]
          intro hx
          exact hne ((compareHashes_eq_true_iff _ _).mp hx)
        simp [this]
    · constructor
      · unfold downloadAndExtractPackage
        simp [hpref512, hpref1512, htail512, hdec]
        constructor
        · intro hcmp
          exact (compareHashes_eq_true_iff _ _).mp hcmp
        · intro hq
          rw [hq]
          exact (compareHashes_eq_true_iff _ _).mpr rfl
      · intro hne
        unfold downloadAndExtractPackage
        simp [hpref512, hpref1512, htail512, hdec]
        have : compareHashes sha512Sum d = false := by
          rw [Bool.eq_false_iff]
          intro hx
          exact hne ((compareHashes_eq_true_iff _ _).mp hx)
        simp [this]

/-- Witness for C6 at a concrete tag: sha1-AA== decodes to the one-byte
digest [0], and a unit whose sha1 digest is [0] succeeds. -/
theorem claim6_witness :
    downloadAndExtractPackage 200 [0] [] (.ok ()) ("sha1-".data ++ "AA==".data)
      = .ok () :=
  ((claim6_integrity_contract [0] [] "AA==".data (.ok ()) (by decide)).2.2
    [0] rfl).1.1.mpr rfl

/- ### Claim C5: compatibility reuse from the resolver memo -/

namespace Resolve

/-- Claim C5: when the memo holds an entry keyed `name@...` whose concrete
version satisfies the requested range, ResolveDependency returns a
previously resolved such entry (the first in scan order), leaves the memo
unchanged, and performs no registry metadata fetch. -/
theorem claim5_memo_reuse (rs : String → List String → Option String)
    (registry : String → Except String PackageMetadata)
    (fuel : Nat) (memo : List (String × PackageInfo)) (name version : String)
    (h : ∃ kp ∈ memo, (name ++ "@").data.isPrefixOf kp.1.data = true
          ∧ versionSatisfies rs version kp.2.version = true) :
    ∃ p, findCompatible rs memo name version = some p
      ∧ (∃ k, (k, p) ∈ memo ∧ (name ++ "@").data.isPrefixOf k.data = true
          ∧ versionSatisfies rs version p.version = true)
      ∧ resolveDependency rs registry (fuel + 1) memo name version
          = (.ok p, memo, 0) := by
  have hfind : ∃ p, findCompatible rs memo name version = some p
      ∧ ∃ k, (k, p) ∈ memo ∧ (name ++ "@").data.isPrefixOf k.data = true
        ∧ versionSatisfies rs version p.version = true := by
    induction memo with
    | nil =>
      obtain ⟨kp, hkp, _⟩ := h
      cases hkp
    | cons kv rest ih =>
      by_cases hpre : (name ++ "@").data.isPrefixOf kv.1.data = true
      · by_cases hsat : versionSatisfies rs version kv.2.version = true
        · refine ⟨kv.2, ?_, kv.1, List.mem_cons_self .., hpre, hsat⟩
          unfold findCompatible
          rw [if_pos hpre, if_pos hsat]
        · obtain ⟨kp, hkp, hkppre, hkpsat⟩ := h
          rcases List.mem_cons.mp hkp with hkp1 | hkp1
          · exact absurd (hkp1 ▸ hkpsat) hsat
          · obtain ⟨p, hp, k, hkmem, hkpre, hksat⟩ := ih ⟨kp, hkp1, hkppre, hkpsat⟩
            refine ⟨p, ?_, k, List.mem_cons_of_mem kv hkmem, hkpre, hksat⟩
            unfold findCompatible
            rw [if_pos hpre, if_neg hsat]
            exact hp
      · obtain ⟨kp, hkp, hkppre, hkpsat⟩ := h
        rcases List.mem_cons.mp hkp with hkp1 | hkp1
        · exact absurd (hkp1 ▸ hkppre) hpre
        · obtain ⟨p, hp, k, hkmem, hkpre, hksat⟩ := ih ⟨kp, hkp1, hkppre, hkpsat⟩
          refine ⟨p, ?_, k, List.mem_cons_of_mem kv hkmem, hkpre, hksat⟩
          unfold findCompatible
          rw [if_neg hpre]
          exact hp
  obtain ⟨p, hp, hk⟩ := hfind
  refine ⟨p, hp, hk, ?_⟩
  unfold resolveDependency
  rw [hp]

/-- Witness for C5: a memo holding foo at a satisfying version is reused
with no fetch even though the registry oracle is offline. -/
theorem claim5_witness :
    resolveDependency rsAlways regOffline 1 memoFoo "foo" "~1.0.2"
      = (.ok pkgFoo, memoFoo, 0) := by
  obtain ⟨p, hfind, _, heq⟩ :=
    claim5_memo_reuse rsAlways regOffline 0 memoFoo "foo" "~1.0.2"
      ⟨("foo@^1.0.0", pkgFoo), List.mem_singleton.mpr rfl, by decide, rfl⟩
  have hp : p = pkgFoo := by
    have h2 : findCompatible rsAlways memoFoo "foo" "~1.0.2" = some pkgFoo := rfl
    rw [h2] at hfind
    exact (Option.some.injEq _ _ ▸ hfind).symm
  rw [hp] at heq
  exact heq

/- ### Claim C8: dist-tag fallback and unknown ranges -/

/-- Claim C8: when the memo scan finds nothing and semver matching of the
requested range against the fetched version keys fails, ResolveDependency
consults the dist-tags: an absent tag fails the call with the
unknown-version-or-tag error, leaving the memo unmemoized (one metadata
fetch was performed); a present tag substitutes the tag's version and
retries matching, continuing exactly as resolvePicked with the substituted
version under the original memo key. -/
theorem claim8_dist_tag_fallback (rs : String → List String → Option String)
    (registry : String → Except String PackageMetadata)
    (fuel : Nat) (memo : List (String × PackageInfo)) (name version : String)
    (md : PackageMetadata)
    (hc : findCompatible rs memo name version = none)
    (hm : registry name = .ok md)
    (hf : GetMatchingVersions rs version (md.versions.map Prod.fst) = none) :
    (lookupA md.distTags version = none →
        resolveDependency rs registry (fuel + 1) memo name version
          = (.error (.unknownVersionOrTag version), memo, 1))
    ∧ (∀ tagVersion, lookupA md.distTags version = some tagVersion →
        resolveDependency rs registry (fuel + 1) memo name version
          = ((resolvePicked rs registry fuel memo (name ++ "@" ++ version)
                tagVersion md).1,
             (resolvePicked rs registry fuel memo (name ++ "@" ++ version)
                tagVersion md).2.1,
             1 + (resolvePicked rs registry fuel memo (name ++ "@" ++ version)
                tagVersion md).2.2)) := by
  constructor
  · intro htag
    unfold resolveDependency
    rw [hc, hm]
    simp only [hf, htag]
  · intro tagVersion htag
    unfold resolveDependency
    rw [hc, hm]
    simp only [hf, htag]
    unfold resolvePicked
    cases hl : latestMatchingVersion rs tagVersion md with
    | error msg => simp
    | ok pkgInfo =>
      cases hd : resolveDepsList rs registry fuel memo pkgInfo.dependencies with
      | mk r rest => cases r <;> simp [hd]

/-- Witness for C8: an unknown range with no dist-tags fails with the
unknown-version-or-tag error after exactly one metadata fetch, and the
memo stays empty. -/
theorem claim8_witness :
    resolveDependency rsNever regEmpty 1 [] "foo" "beta"
      = (.error (.unknownVersionOrTag "beta"), [], 1) :=
  (claim8_dist_tag_fallback rsNever regEmpty 0 [] "foo" "beta" ⟨[], []⟩
    rfl rfl rfl).1 rfl

end Resolve

/- ### Claim C2: the hoister invariant -/

namespace Resolve

/-- Claim C2 as stated is false: on input [A, X] with C referenced at
depth two under A and depth one under X, C is hoisted to the root (the
root becomes A, X, C) yet the occurrence of C@1.0.0 inside B's
resolvedDeps, at depth two of the returned tree, survives, because
updateRefs rewrites value copies of the nested slices. -/
theorem claim2_counterexample :
    hoistInput.map PackageInfo.name = ["A", "X"]
    ∧ (HoistDependencies hoistInput).map PackageInfo.name = ["A", "X", "C"]
    ∧ (HoistDependencies hoistInput).any (occursInDeps "C" "1.0.0") = true :=
  ⟨rfl, rfl, rfl⟩

/-- Rewriting references does not change a package's name. -/
theorem cleanTopLevel_name (n v : String) (p : PackageInfo) :
    (cleanTopLevel n v p).name = p.name := by
  cases p
  rfl

/-- Rewriting references does not change a package's version. -/
theorem cleanTopLevel_version (n v : String) (p : PackageInfo) :
    (cleanTopLevel n v p).version = p.version := by
  cases p
  rfl

/-- The name list of a root slice is unchanged by a reference rewrite. -/
theorem map_name_map_cleanTopLevel (n v : String) (l : List PackageInfo) :
    (l.map (cleanTopLevel n v)).map PackageInfo.name = l.map PackageInfo.name := by
  rw [List.map_map]
  exact List.map_congr_left (fun p _ => cleanTopLevel_name n v p)

/-- After rewriting references to n@v away, no depth-one occurrence of
n@v remains. -/
theorem noTopOcc_cleanTopLevel_self (n v : String) (q : PackageInfo) :
    noTopOcc n v (cleanTopLevel n v q) = true := by
  cases q with
  | mk nm vr dd dv pd rdeps r i dt di =>
    simp only [noTopOcc, cleanTopLevel, PackageInfo.resolvedDeps, List.all_eq_true]
    intro e he
    exact (List.mem_filter.mp he).2

/-- Rewriting references to another package preserves depth-one absence. -/
theorem noTopOcc_cleanTopLevel_of (n v n' v' : String) (q : PackageInfo)
    (h : noTopOcc n v q = true) :
    noTopOcc n v (cleanTopLevel n' v' q) = true := by
  cases q with
  | mk nm vr dd dv pd rdeps r i dt di =>
    simp only [noTopOcc, cleanTopLevel, PackageInfo.resolvedDeps, List.all_eq_true] at h ⊢
    intro e he
    exact h e (List.mem_filter.mp he).1

/-- Assigning a key overrides its lookup and leaves the rest alone. -/
theorem lookupA_setA {β : Type} (m : List (String × β)) (k k' : String) (v : β) :
    lookupA (setA m k v) k' = if k' = k then some v else lookupA m k' := by
  induction m with
  | nil =>
    show lookupA [(k, v)] k' = if k' = k then some v else lookupA [] k'
    by_cases h : k = k'
    · rw [show lookupA [(k, v)] k' = some v from by unfold lookupA; rw [if_pos h],
        if_pos h.symm]
    · rw [show lookupA [(k, v)] k' = none from by unfold lookupA; rw [if_neg h]; rfl,
        if_neg (fun hh => h hh.symm)]
      rfl
  | cons kv rest ih =>
    show lookupA (if kv.1 = k then (kv.1, v) :: rest else (kv.1, kv.2) :: setA rest k v) k'
        = if k' = k then some v else lookupA ((kv.1, kv.2) :: rest) k'
    by_cases h : kv.1 = k
    · rw [if_pos h]
      unfold lookupA
      by_cases h2 : kv.1 = k'
      · rw [if_pos h2, if_pos (h2.symm.trans h)]
      · rw [if_neg h2]
        by_cases h3 : k' = k
        · exact absurd (h.trans h3.symm) h2
        · rw [if_neg h3, if_neg h2]
    · rw [if_neg h]
      unfold lookupA
      by_cases h2 : kv.1 = k'
      · rw [if_pos h2]
        by_cases h3 : k' = k
        · exact absurd (h2.trans h3) h
        · rw [if_neg h3, if_pos h2]
      · rw [if_neg h2, ih]
        by_cases h3 : k' = k
        · rw [if_pos h3, if_pos h3]
        · rw [if_neg h3, if_neg h3, if_neg h2]

/-- Assigning a key makes exactly it, plus the previous keys, present. -/
theorem lookupA_setA_isSome {β : Type} (m : List (String × β)) (k k' : String) (v : β) :
    (lookupA (setA m k v) k').isSome ↔ k' = k ∨ (lookupA m k').isSome := by
  rw [lookupA_setA]
  by_cases h : k' = k <;> simp [h]

/-- The keys made present by seeding the root name map. -/
theorem lookupA_foldl_setA_name (l : List PackageInfo)
    (m0 : List (String × String)) (nm : String) :
    (lookupA (l.foldl (fun m d => setA m d.name d.version) m0) nm).isSome
      ↔ nm ∈ l.map PackageInfo.name ∨ (lookupA m0 nm).isSome := by
  induction l generalizing m0 with
  | nil => simp
  | cons d rest ih =>
    rw [List.foldl_cons, ih]
    rw [lookupA_setA_isSome]
    simp only [List.map_cons, List.mem_cons]
    tauto

/-- One step of the hoisting loop preserves the root invariant: the root
keeps at least the original entries, its names stay duplicate-free and in
sync with the root name map, and every pair already hoisted stays absent
from the depth-one maps of the original root entries. -/
theorem hoistStep_inv (n : Nat) (packages : List (String × PackageInfo))
    (kc : String × Nat) (st : List PackageInfo × List (String × String))
    (h1 : n ≤ st.1.length) (h2 : (st.1.map PackageInfo.name).Nodup)
    (h3 : ∀ nm, nm ∈ st.1.map PackageInfo.name ↔ (lookupA st.2 nm).isSome)
    (h4 : ∀ p ∈ st.1.drop n, ∀ q ∈ st.1.take n, noTopOcc p.name p.version q = true) :
    n ≤ (hoistStep packages st kc).1.length
    ∧ ((hoistStep packages st kc).1.map PackageInfo.name).Nodup
    ∧ (∀ nm, nm ∈ (hoistStep packages st kc).1.map PackageInfo.name
        ↔ (lookupA (hoistStep packages st kc).2 nm).isSome)
    ∧ (∀ p ∈ (hoistStep packages st kc).1.drop n,
        ∀ q ∈ (hoistStep packages st kc).1.take n,
          noTopOcc p.name p.version q = true) := by
  unfold hoistStep
  by_cases hle : kc.2 ≤ 1
  · rw [if_pos hle]
    exact ⟨h1, h2, h3, h4⟩
  · rw [if_neg hle]
    split
    · exact ⟨h1, h2, h3, h4⟩
    · next pkg hpk =>
      split
      · next existingVersion hrt =>
        split
        · next hev =>
          refine ⟨by simpa using h1, ?_, ?_, ?_⟩
          · simp only [map_name_map_cleanTopLevel]
            exact h2
          · intro nm
            simp only [map_name_map_cleanTopLevel]
            exact h3 nm
          · intro p hp q hq
            rw [← List.map_drop] at hp
            rw [← List.map_take] at hq
            obtain ⟨p0, hp0, hp0e⟩ := List.mem_map.mp hp
            obtain ⟨q0, hq0, hq0e⟩ := List.mem_map.mp hq
            rw [← hp0e, ← hq0e, cleanTopLevel_name, cleanTopLevel_version]
            exact noTopOcc_cleanTopLevel_of _ _ _ _ q0 (h4 p0 hp0 q0 hq0)
        · next hev =>
          exact ⟨h1, h2, h3, h4⟩
      · next hrt =>
        have hnotmem : pkg.name ∉ st.1.map PackageInfo.name := by
          intro hmem
          have := (h3 pkg.name).mp hmem
          rw [hrt] at this
          cases this
        refine ⟨?_, ?_, ?_, ?_⟩
        · simp only [List.length_map, List.length_append]
          omega
        · rw [map_name_map_cleanTopLevel, List.map_append]
          rw [List.nodup_append]
          refine ⟨h2, List.nodup_singleton _, ?_⟩
          intro a ha hb
          have hab : a = pkg.name := by simpa using hb
          rw [hab] at ha
          exact hnotmem ha
        · intro nm
          rw [map_name_map_cleanTopLevel, List.map_append]
          rw [lookupA_setA_isSome]
          simp only [List.mem_append, List.map_cons, List.map_nil,
            List.mem_singleton]
          rw [h3 nm]
          tauto
        · intro p hp q hq
          have hlen : n ≤ (st.1.map (cleanTopLevel pkg.name pkg.version)).length := by
            simpa using h1
          rw [show (st.1 ++ [pkg]).map (cleanTopLevel pkg.name pkg.version)
              = st.1.map (cleanTopLevel pkg.name pkg.version)
                ++ [cleanTopLevel pkg.name pkg.version pkg] from by
            rw [List.map_append]; rfl] at hp hq
          rw [List.take_append_of_le_length hlen] at hq
          rw [List.drop_append_of_le_length hlen] at hp
          rw [← List.map_take] at hq
          obtain ⟨q0, hq0, hq0e⟩ := List.mem_map.mp hq
          rcases List.mem_append.mp hp with hp1 | hp1
          · rw [← List.map_drop] at hp1
            obtain ⟨p0, hp0, hp0e⟩ := List.mem_map.mp hp1
            rw [← hp0e, ← hq0e, cleanTopLevel_name, cleanTopLevel_version]
            exact noTopOcc_cleanTopLevel_of _ _ _ _ q0 (h4 p0 hp0 q0 hq0)
          · rw [List.mem_singleton.mp hp1, ← hq0e,
              cleanTopLevel_name, cleanTopLevel_version]
            exact noTopOcc_cleanTopLevel_self pkg.name pkg.version q0

/-- The whole hoisting loop preserves the root invariant. -/
theorem hoistFold_inv (n : Nat) (packages : List (String × PackageInfo))
    (counts : List (String × Nat)) (st : List PackageInfo × List (String × String))
    (h1 : n ≤ st.1.length) (h2 : (st.1.map PackageInfo.name).Nodup)
    (h3 : ∀ nm, nm ∈ st.1.map PackageInfo.name ↔ (lookupA st.2 nm).isSome)
    (h4 : ∀ p ∈ st.1.drop n, ∀ q ∈ st.1.take n, noTopOcc p.name p.version q = true) :
    n ≤ (counts.foldl (hoistStep packages) st).1.length
    ∧ (((counts.foldl (hoistStep packages) st).1.map PackageInfo.name).Nodup
    ∧ ∀ p ∈ (counts.foldl (hoistStep packages) st).1.drop n,
        ∀ q ∈ (counts.foldl (hoistStep packages) st).1.take n,
          noTopOcc p.name p.version q = true) := by
  induction counts generalizing st with
  | nil => exact ⟨h1, h2, h4⟩
  | cons kc rest ih =>
    rw [List.foldl_cons]
    obtain ⟨g1, g2, g3, g4⟩ := hoistStep_inv n packages kc st h1 h2 h3 h4
    exact ih (hoistStep packages st kc) g1 g2 g3 g4

/-- Claim C2 amended: on a top-level list with pairwise distinct names,
after HoistDependencies each name appears at the root at most once (so at
most one version per name), and every hoisted (name, version) pair — the
entries appended beyond the original list — has been removed from the
depth-one resolvedDeps maps of all original root entries; occurrences at
depth two or deeper, and occurrences inside entries hoisted later, may
remain, because updateRefs descends into value copies of the subtrees and
its nested rewrites are discarded. -/
theorem claim2_amended (dependencies : List PackageInfo)
    (hnd : (dependencies.map PackageInfo.name).Nodup) :
    ((HoistDependencies dependencies).map PackageInfo.name).Nodup
    ∧ ∀ p ∈ (HoistDependencies dependencies).drop dependencies.length,
        ∀ q ∈ (HoistDependencies dependencies).take dependencies.length,
          noTopOcc p.name p.version q = true := by
  unfold HoistDependencies
  have h := hoistFold_inv dependencies.length
    (collectTop ([], []) dependencies).1
    (collectTop ([], []) dependencies).2
    (dependencies, dependencies.foldl (fun m d => setA m d.name d.version) [])
    (le_refl _) hnd
    (by
      intro nm
      rw [lookupA_foldl_setA_name]
      simp [lookupA])
    (by
      intro p hp
      rw [List.drop_length] at hp
      cases hp)
  exact ⟨h.2.1, h.2.2⟩

/-- Witness for the amended C2 on the counterexample input: the root names
stay duplicate-free, and the hoisted entry C@1.0.0 is gone from the
depth-one resolvedDeps map of the original root entry A. -/
theorem claim2_amended_witness :
    ((HoistDependencies hoistInput).map PackageInfo.name).Nodup
    ∧ noTopOcc "C" "1.0.0" (cleanTopLevel "C" "1.0.0" hoistA) = true := by
  have h := claim2_amended hoistInput (by decide)
  exact ⟨h.1, h.2 (cleanTopLevel "C" "1.0.0" hoistC) (List.Mem.head _)
    (cleanTopLevel "C" "1.0.0" hoistA) (List.Mem.head _)⟩

end Resolve

/- ### Claim C9: bin shim symlinks are relative and resolve to the script -/

/-- Clean keeps a normal component by pushing it on the stack. -/
theorem cleanStep_normal (ab : Bool) (st : List String) (s : String)
    (hs : NormalSeg s) : cleanStep ab st s = s :: st := by
  obtain ⟨h1, h2, h3⟩ := hs
  unfold cleanStep
  rw [if_neg (by simp [h1, h2]), if_neg h3]

/-- Clean over a run of normal components pushes them all. -/
theorem foldl_cleanStep_normal (ab : Bool) (l : List String) (st : List String)
    (hl : ∀ s ∈ l, NormalSeg s) :
    List.foldl (cleanStep ab) st l = l.reverse ++ st := by
  induction l generalizing st with
  | nil => simp
  | cons s rest ih =>
    rw [List.foldl_cons, cleanStep_normal ab st s (hl s (List.mem_cons_self ..)),
      ih (s :: st) (fun x hx => hl x (List.mem_cons_of_mem s hx))]
    simp

/-- Clean over a run of dot-dots pops a stack of normal components. -/
theorem foldl_cleanStep_pops (ab : Bool) (bs st : List String)
    (hbs : ∀ s ∈ bs, NormalSeg s) :
    List.foldl (cleanStep ab) (bs ++ st) (List.replicate bs.length "..") = st := by
  induction bs with
  | nil => simp
  | cons b bs' ih =>
    have hb := hbs b (List.mem_cons_self ..)
    rw [List.length_cons, List.replicate_succ, List.cons_append, List.foldl_cons]
    have hstep : cleanStep ab (b :: (bs' ++ st)) ".." = bs' ++ st := by
      unfold cleanStep
      rw [if_neg (by decide), if_pos rfl]
      simp only
      rw [if_neg hb.2.2]
    rw [hstep]
    exact ih (fun x hx => hbs x (List.mem_cons_of_mem b hx))

/-- The advance to the first difference exposes the common prefix. -/
theorem stripCommon_eq (a : List String) :
    ∀ (b ra rb : List String), stripCommon a b = (ra, rb) →
      ∃ c, a = c ++ ra ∧ b = c ++ rb := by
  induction a with
  | nil =>
    intro b ra rb h
    unfold stripCommon at h
    cases h
    exact ⟨[], rfl, rfl⟩
  | cons x as ih =>
    intro b ra rb h
    cases b with
    | nil =>
      unfold stripCommon at h
      cases h
      exact ⟨[], rfl, rfl⟩
    | cons y bs =>
      unfold stripCommon at h
      by_cases hxy : x = y
      · rw [if_pos hxy] at h
        obtain ⟨c, hac, hbc⟩ := ih bs ra rb h
        exact ⟨x :: c, by rw [List.cons_append, ← hac], by rw [List.cons_append, ← hbc, hxy]⟩
      · rw [if_neg hxy] at h
        cases h
        exact ⟨[], rfl, rfl⟩

/-- Clean is the identity on slash-joined normal components. -/
theorem cleanSegs_normal (ab : Bool) (l : List String)
    (hl : ∀ s ∈ l, NormalSeg s) : cleanSegs ab l = l := by
  unfold cleanSegs
  rw [foldl_cleanStep_normal ab l [] hl]
  simp

/-- The filepath.Rel round trip on paths made of normal components:
joining the computed relative segments back onto the base and cleaning
reaches exactly the target. -/
theorem relPath_roundtrip_normal (ab : Bool) (b t : List String)
    (hb : ∀ s ∈ b, NormalSeg s) (ht : ∀ s ∈ t, NormalSeg s) (r : List String)
    (h : relPath ⟨ab, b⟩ ⟨ab, t⟩ = some r) :
    joinPath ⟨ab, b⟩ r = ⟨ab, t⟩ := by
  unfold relPath at h
  rw [if_neg (by simp)] at h
  simp only at h
  rw [cleanSegs_normal ab b hb, cleanSegs_normal ab t ht] at h
  by_cases hbt : b = t
  · rw [if_pos hbt] at h
    have hr : r = ["."] := (Option.some.inj h).symm
    subst hr
    unfold joinPath cleanPath
    simp only [GoPath.mk.injEq, true_and]
    unfold cleanSegs
    rw [List.foldl_append, foldl_cleanStep_normal ab b [] hb]
    rw [show List.foldl (cleanStep ab) (b.reverse ++ []) ["."]
        = cleanStep ab (b.reverse ++ []) "." from rfl]
    rw [show cleanStep ab (b.reverse ++ []) "." = b.reverse ++ [] from by
      unfold cleanStep
      rw [if_pos (by simp)]]
    simp [hbt]
  · rw [if_neg hbt] at h
    rcases hsc : stripCommon b t with ⟨_ | ⟨b0, brest'⟩, trest⟩
    all_goals rw [hsc] at h
    · obtain ⟨c, hbc, htc⟩ := stripCommon_eq b t [] trest hsc
      have hcn : ∀ s ∈ c, NormalSeg s := fun s hs =>
        hb s (hbc ▸ List.mem_append_left _ hs)
      have htrest : ∀ s ∈ trest, NormalSeg s := fun s hs =>
        ht s (htc ▸ List.mem_append_right _ hs)
      · simp only at h
        have hr : r = trest := (Option.some.inj h).symm
        rw [hr]
        unfold joinPath cleanPath
        simp only [GoPath.mk.injEq, true_and]
        have hbceq : b = c := by simpa using hbc
        rw [hbceq, cleanSegs_normal ab (c ++ trest) (fun s hs => by
          rcases List.mem_append.mp hs with h1 | h1
          · exact hcn s h1
          · exact htrest s h1)]
        exact htc.symm
    · obtain ⟨c, hbc, htc⟩ := stripCommon_eq b t (b0 :: brest') trest hsc
      have hcn : ∀ s ∈ c, NormalSeg s := fun s hs =>
        hb s (hbc ▸ List.mem_append_left _ hs)
      have htrest : ∀ s ∈ trest, NormalSeg s := fun s hs =>
        ht s (htc ▸ List.mem_append_right _ hs)
      · have hb0 : NormalSeg b0 :=
          hb b0 (hbc ▸ List.mem_append_right c (List.mem_cons_self ..))
        simp only at h
        rw [if_neg hb0.2.2] at h
        have hbf : ∀ s ∈ b0 :: brest', NormalSeg s := fun s hs =>
          hb s (hbc ▸ List.mem_append_right c hs)
        have hr : r = List.replicate (b0 :: brest').length ".." ++ trest :=
          (Option.some.inj h).symm
        rw [hr]
        unfold joinPath cleanPath
        simp only [GoPath.mk.injEq, true_and]
        unfold cleanSegs
        rw [hbc, List.foldl_append, List.foldl_append,
          foldl_cleanStep_normal ab (c ++ b0 :: brest') [] (fun s hs => by
            rcases List.mem_append.mp hs with h1 | h1
            · exact hcn s h1
            · exact hbf s h1)]
        rw [show (c ++ b0 :: brest').reverse ++ [] = (b0 :: brest').reverse ++ c.reverse from by
          simp]
        rw [show (b0 :: brest').length = ((b0 :: brest').reverse).length from by simp]
        rw [foldl_cleanStep_pops ab ((b0 :: brest').reverse) c.reverse (fun s hs => by
          exact hbf s (List.mem_reverse.mp hs))]
        rw [foldl_cleanStep_normal ab trest c.reverse htrest]
        rw [htc]
        simp

/-- Claim C9: for every bin shim the installer creates, the stored symlink
target is a relative segment list, and joining it onto the .bin directory
and normalizing yields exactly the script's full path under node_modules,
wherever the node_modules tree sits (the base path is universally
quantified, absolute or relative). Package names, script path components
and the command name are normal path components. -/
theorem claim9_shim_roundtrip (ab : Bool) (nm pkgSegs scriptSegs : List String)
    (cmdName : String)
    (h1 : ∀ s ∈ nm, NormalSeg s) (h2 : ∀ s ∈ pkgSegs, NormalSeg s)
    (h3 : ∀ s ∈ scriptSegs, NormalSeg s) (h4 : NormalSeg cmdName) :
    ∃ r, createExecutableSymlink
        (joinPath ⟨ab, nm⟩ (pkgSegs ++ scriptSegs))
        (joinPath (joinPath ⟨ab, nm⟩ [".bin"]) [cmdName]) = some r
      ∧ joinPath (dirPath (joinPath (joinPath ⟨ab, nm⟩ [".bin"]) [cmdName])) r
          = joinPath ⟨ab, nm⟩ (pkgSegs ++ scriptSegs) := by
  have hbin : NormalSeg ".bin" := by
    refine ⟨?_, ?_, ?_⟩ <;> decide
  have hTargAll : ∀ s ∈ nm ++ (pkgSegs ++ scriptSegs), NormalSeg s := by
    intro s hs
    rcases List.mem_append.mp hs with hx | hx
    · exact h1 s hx
    · rcases List.mem_append.mp hx with hy | hy
      · exact h2 s hy
      · exact h3 s hy
  have hBaseAll : ∀ s ∈ nm ++ [".bin"], NormalSeg s := by
    intro s hs
    rcases List.mem_append.mp hs with hx | hx
    · exact h1 s hx
    · rw [List.mem_singleton.mp hx]; exact hbin
  have hLinkAll : ∀ s ∈ (nm ++ [".bin"]) ++ [cmdName], NormalSeg s := by
    intro s hs
    rcases List.mem_append.mp hs with hx | hx
    · exact hBaseAll s hx
    · rw [List.mem_singleton.mp hx]; exact h4
  have hScript : joinPath ⟨ab, nm⟩ (pkgSegs ++ scriptSegs)
      = ⟨ab, nm ++ (pkgSegs ++ scriptSegs)⟩ := by
    unfold joinPath cleanPath
    simp only [GoPath.mk.injEq, true_and]
    exact cleanSegs_normal ab _ hTargAll
  have hBinDir : joinPath ⟨ab, nm⟩ [".bin"] = ⟨ab, nm ++ [".bin"]⟩ := by
    unfold joinPath cleanPath
    simp only [GoPath.mk.injEq, true_and]
    exact cleanSegs_normal ab _ hBaseAll
  have hLink : joinPath (joinPath ⟨ab, nm⟩ [".bin"]) [cmdName]
      = ⟨ab, (nm ++ [".bin"]) ++ [cmdName]⟩ := by
    rw [hBinDir]
    unfold joinPath cleanPath
    simp only [GoPath.mk.injEq, true_and]
    exact cleanSegs_normal ab _ hLinkAll
  have hDir : dirPath (joinPath (joinPath ⟨ab, nm⟩ [".bin"]) [cmdName])
      = ⟨ab, nm ++ [".bin"]⟩ := by
    rw [hLink]
    unfold dirPath cleanPath
    simp only [GoPath.mk.injEq, true_and]
    rw [show ((nm ++ [".bin"]) ++ [cmdName]).dropLast = nm ++ [".bin"] from by
      rw [List.dropLast_concat]]
    exact cleanSegs_normal ab _ hBaseAll
  have hsome : ∃ r, relPath ⟨ab, nm ++ [".bin"]⟩ ⟨ab, nm ++ (pkgSegs ++ scriptSegs)⟩
      = some r := by
    unfold relPath
    rw [if_neg (by simp)]
    simp only
    rw [cleanSegs_normal ab _ hBaseAll, cleanSegs_normal ab _ hTargAll]
    by_cases heq : nm ++ [".bin"] = nm ++ (pkgSegs ++ scriptSegs)
    · rw [if_pos heq]
      exact ⟨["."], rfl⟩
    · rw [if_neg heq]
      rcases hsc : stripCommon (nm ++ [".bin"]) (nm ++ (pkgSegs ++ scriptSegs)) with
        ⟨_ | ⟨b0, brest'⟩, trest⟩
      · exact ⟨trest, rfl⟩
      · obtain ⟨c, hbc, _⟩ := stripCommon_eq _ _ _ _ hsc
        have hb0 : NormalSeg b0 :=
          hBaseAll b0 (hbc ▸ List.mem_append_right c (List.mem_cons_self ..))
        simp only
        rw [if_neg hb0.2.2]
        exact ⟨_, rfl⟩
  obtain ⟨r, hr⟩ := hsome
  refine ⟨r, ?_, ?_⟩
  · unfold createExecutableSymlink
    rw [hDir, hScript]
    exact hr
  · rw [hDir, hScript]
    exact relPath_roundtrip_normal ab (nm ++ [".bin"]) (nm ++ (pkgSegs ++ scriptSegs))
      hBaseAll hTargAll r hr

/-- Witness for C9 at the concrete is-odd shim: the stored target is
../is-odd/cli.js and rejoining reaches node_modules/is-odd/cli.js. -/
theorem claim9_witness :
    createExecutableSymlink
        (joinPath ⟨false, ["node_modules"]⟩ (["is-odd"] ++ ["cli.js"]))
        (joinPath (joinPath ⟨false, ["node_modules"]⟩ [".bin"]) ["is-odd"])
      = some ["..", "is-odd", "cli.js"]
    ∧ joinPath
        (dirPath (joinPath (joinPath ⟨false, ["node_modules"]⟩ [".bin"]) ["is-odd"]))
        ["..", "is-odd", "cli.js"]
      = joinPath ⟨false, ["node_modules"]⟩ (["is-odd"] ++ ["cli.js"]) := by
  obtain ⟨r, hr, hrt⟩ := claim9_shim_roundtrip false ["node_modules"] ["is-odd"]
    ["cli.js"] "is-odd"
    (by intro s hs; rw [List.mem_singleton.mp hs]; exact ⟨by decide, by decide, by decide⟩)
    (by intro s hs; rw [List.mem_singleton.mp hs]; exact ⟨by decide, by decide, by decide⟩)
    (by intro s hs; rw [List.mem_singleton.mp hs]; exact ⟨by decide, by decide, by decide⟩)
    ⟨by decide, by decide, by decide⟩
  have hrv : r = ["..", "is-odd", "cli.js"] := by
    have hconc : createExecutableSymlink
        (joinPath ⟨false, ["node_modules"]⟩ (["is-odd"] ++ ["cli.js"]))
        (joinPath (joinPath ⟨false, ["node_modules"]⟩ [".bin"]) ["is-odd"])
        = some ["..", "is-odd", "cli.js"] := rfl
    rw [hconc] at hr
    exact (Option.some.inj hr).symm
  rw [hrv] at hr hrt
  exact ⟨hr, hrt⟩

end Caladan
